import Mathlib

/-!
Verification of the `c8ylp` (Cumulocity remote access local proxy) repository
against its natural-language specification.

Strings from the Python source are modelled as `List Char`; every model
definition is translated directly from the corresponding Python function
(file and line references are given in the doc comments).
-/

namespace C8ylp

/-- The whitespace characters stripped by Python's `str.strip()`
(ASCII subset: space, tab, newline, vertical tab, form feed, carriage return). -/
def pyWhitespace (c : Char) : Bool :=
  c = ' ' || c = '\t' || c = '\n' || c = Char.ofNat 11 || c = Char.ofNat 12 || c = '\r'

/-- Python `s.strip()`: remove leading and trailing whitespace. -/
def pyStrip (s : List Char) : List Char :=
  (((s.dropWhile pyWhitespace).reverse).dropWhile pyWhitespace).reverse

/-- Python `s.strip(c)` for a single character `c`: remove all leading and
trailing occurrences of `c`. -/
def pyStripChar (c : Char) (s : List Char) : List Char :=
  (((s.dropWhile (· = c)).reverse).dropWhile (· = c)).reverse

/-- First component of Python `s.partition(sep)` for a one-character
separator: the part before the first occurrence (the whole string if the
separator is absent). -/
def partKey (sep : Char) (s : List Char) : List Char :=
  s.takeWhile (· ≠ sep)

/-- Third component of Python `s.partition(sep)` for a one-character
separator: the part after the first occurrence (empty if the separator is
absent). -/
def partVal (sep : Char) (s : List Char) : List Char :=
  ((s.dropWhile (· ≠ sep)).drop 1)

/-- The single-quote character (written by code point to keep the source plain). -/
def squote : Char := Char.ofNat 39

/-- The double-quote character (written by code point to keep the source plain). -/
def dquote : Char := Char.ofNat 34

/-- An environment is an association list; `envInsert` prepends so the most
recent binding for a key wins on lookup (models mutable `os.environ`). -/
def Env : Type := List (List Char × List Char)

/-- Overwrite semantics of `os.environ[key] = value`. -/
def envInsert (e : Env) (k v : List Char) : Env := (k, v) :: e

/-- Lookup in the environment: the most recently inserted binding wins. -/
def envLookup (e : Env) (k : List Char) : Option (List Char) :=
  match e with
  | [] => none
  | (k2, v) :: rest => if k2 = k then some v else envLookup rest k

/-- ASCII word character, as matched by `\w` under `re.ASCII`
(used by `posixpath.expandvars`). -/
def isWordChar (c : Char) : Bool :=
  (c ≥ 'a' && c ≤ 'z') || (c ≥ 'A' && c ≤ 'Z') || (c ≥ '0' && c ≤ '9') || c = '_'

/-- Whether a character list contains a closing brace (needed to decide
whether a curly reference is well formed). -/
def hasCloseBrace (s : List Char) : Bool := s.any (· = Char.ofNat 125)

/-- `os.path.expandvars` (posixpath): expand references of the shape
dollar-name (name = ASCII word chars) and dollar-brace-name-brace from the
environment; unknown names are left in place; a dollar not followed by a
well-formed reference is literal. Translated from CPython `posixpath.expandvars`
with its regex under `re.ASCII`. -/
def expandvarsF (env : Env) : Nat → List Char → List Char
  | 0, s => s
  | _ + 1, [] => []
  | fuel + 1, c :: rest =>
    if c = '$' then
      match rest with
      | [] => [c]
      | d :: tail =>
        if d = '{' then
          if hasCloseBrace tail then
            let name := tail.takeWhile (· ≠ Char.ofNat 125)
            let after := (tail.dropWhile (· ≠ Char.ofNat 125)).drop 1
            match envLookup env name with
            | some v => v ++ expandvarsF env fuel after
            | none => c :: d :: (name ++ Char.ofNat 125 :: expandvarsF env fuel after)
          else
            c :: expandvarsF env fuel rest
        else if isWordChar d then
          let name := rest.takeWhile isWordChar
          let after := rest.dropWhile isWordChar
          match envLookup env name with
          | some v => v ++ expandvarsF env fuel after
          | none => c :: (name ++ expandvarsF env fuel after)
        else
          c :: expandvarsF env fuel rest
    else c :: expandvarsF env fuel rest

/-- `os.path.expandvars` on the total fuel: every scanner step consumes at
least one character, so fuel `length + 1` is never exhausted. -/
def expandvars (env : Env) (s : List Char) : List Char :=
  expandvarsF env (s.length + 1) s

/-- Whether a stripped env-file line is skipped by `loadenv`
(`src/c8ylp/env.py:52-55`): empty after stripping, or the stripped line
starts with a hash or a semicolon. -/
def loadenvSkips (line : List Char) : Bool :=
  let l := pyStrip line
  l.isEmpty || l.head? = some '#' || l.head? = some ';'

/-- The value transformation of one `loadenv` line
(`src/c8ylp/env.py:59-66`): a value with a single quote at both ends has
all boundary single quotes stripped and is not expanded; a value with a
double quote at both ends is stripped of boundary double quotes and
expanded; any other value is expanded as-is. -/
def loadenvValue (env : Env) (value : List Char) : List Char :=
  if value.head? = some squote && value.getLast? = some squote then
    pyStripChar squote value
  else if value.head? = some dquote && value.getLast? = some dquote then
    expandvars env (pyStripChar dquote value)
  else
    expandvars env value

/-- Processing of one line by `loadenv` (`src/c8ylp/env.py:52-68`):
`none` when the line is skipped, otherwise the key/value pair assigned to
`os.environ`. The line is stripped, split at the first equals sign, and
the value is transformed by `loadenvValue`. -/
def loadenvLine (env : Env) (line : List Char) : Option (List Char × List Char) :=
  if loadenvSkips line then none
  else
    let l := pyStrip line
    some (partKey '=' l, loadenvValue env (partVal '=' l))

/-- `loadenv` (`src/c8ylp/env.py:26-68`) over the lines of a file, starting
from the ambient environment `env0` (modelling `os.environ`); each parsed
line overwrites its key in the environment before later lines are expanded. -/
def loadenv (env0 : Env) (lines : List (List Char)) : Env :=
  lines.foldl
    (fun e line =>
      match loadenvLine e line with
      | none => e
      | some kv => envInsert e kv.1 kv.2)
    env0

/-- The key under which a non-skipped line is assigned by `loadenv`:
the part of the stripped line before the first equals sign (independent
of the ambient environment). -/
def loadKey (line : List Char) : List Char := partKey '=' (pyStrip line)

/-- The raw key of an env-file line as used by `save_env`
(`src/c8ylp/env.py:94`): the part before the first equals sign, with no
stripping. -/
def lineKey (line : List Char) : List Char := partKey '=' line

/-- The line written by `save_env` for a key/value pair
(`src/c8ylp/env.py:101`). -/
def mkLine (k v : List Char) : List Char := k ++ '=' :: v

/-- Whether a key is registered in `key_indexes`
(`src/c8ylp/env.py:93-96`): it is nonempty and is the raw key of some line
of the existing file. -/
def keyInFile (file : List (List Char)) (k : List Char) : Bool :=
  !k.isEmpty && file.any (fun l => lineKey l = k)

/-- One iteration of the `save_env` values loop (`src/c8ylp/env.py:99-112`)
acting on the current output lines and change flag. `file` is the original
file content, fixed when `key_indexes` was built. An existing key rewrites
every line whose index carried that key in the original file; a new key is
appended. The change flag is raised when a rewritten line differs or a
line is appended. -/
def saveEnvStep (file : List (List Char)) (acc : List (List Char) × Bool)
    (kv : List Char × List Char) : List (List Char) × Bool :=
  let out := acc.1
  let newline := mkLine kv.1 kv.2
  if keyInFile file kv.1 then
    ( out.mapIdx (fun i l =>
        if i < file.length && lineKey (file.getD i []) = kv.1 then newline else l),
      acc.2 || (List.range file.length).any (fun i =>
        lineKey (file.getD i []) = kv.1 && out.getD i [] ≠ newline) )
  else
    (out ++ [newline], true)

/-- The output lines and change flag of `save_env`
(`src/c8ylp/env.py:71-117`): fold the values (dictionary items in
insertion order) over the existing file lines. -/
def save_env (file : List (List Char)) (values : List (List Char × List Char)) :
    List (List Char) × Bool :=
  values.foldl (saveEnvStep file) (file, false)

/-- The key/value pairs written by `store_credentials`
(`src/c8ylp/cli/core.py:402-427`): host, user, tenant and token of the
client; the password is deliberately not included. -/
def storeCredentialsValues (url user tenant token : List Char) :
    List (List Char × List Char) :=
  [ (String.data "C8Y_HOST", url),
    (String.data "C8Y_USER", user),
    (String.data "C8Y_TENANT", tenant),
    (String.data "C8Y_TOKEN", token) ]

/-! ## Websocket client (`src/c8ylp/websocket_client/ws_client.py`) -/

/-- Observable actions of the websocket client. -/
inductive WSAction where
  | dial
  | closeSocket
  | shutdownRequest
  deriving DecidableEq, Repr

/-- State of `WebsocketClient` relevant to reconnect behaviour
(`src/c8ylp/websocket_client/ws_client.py:65-100`): `maxRetries` is the
`max_retries` constructor argument, `attempts` is `connection_attempts`,
`wsOpen` is the `_ws_open_event` flag, `hasSocket` is whether
`self.web_socket` is not `None`, `stableTimer` is whether the stability
timer is pending. -/
structure WSClient where
  maxRetries : Int
  attempts : Nat
  wsOpen : Bool
  handshakeError : Bool
  hasSocket : Bool
  stableTimer : Bool
  deriving DecidableEq, Repr

/-- The client as constructed (`ws_client.py:65-100`): zero attempts, no
socket, no error. -/
def wsInit (maxRetries : Int) : WSClient :=
  { maxRetries := maxRetries, attempts := 0, wsOpen := false,
    handshakeError := false, hasSocket := false, stableTimer := false }

/-- `WebsocketClient.connect` (`ws_client.py:102-170`): clear the open
event, increment `connection_attempts`, create and start the websocket
(one dial). -/
def wsConnect (c : WSClient) : WSClient × List WSAction :=
  ({ c with wsOpen := false, attempts := c.attempts + 1, hasSocket := true },
   [WSAction.dial])

/-- `WebsocketClient.reconnect` (`ws_client.py:172-191`): close any
existing socket; if `max_retries > -1` and `connection_attempts >=
max_retries`, invoke the shutdown request callback and stop; otherwise
drop the socket and call `connect` (a new dial). -/
def wsReconnect (c : WSClient) : WSClient × List WSAction :=
  let closeActs : List WSAction := if c.hasSocket then [WSAction.closeSocket] else []
  if c.maxRetries > -1 ∧ (c.attempts : Int) ≥ c.maxRetries then
    (c, closeActs ++ [WSAction.shutdownRequest])
  else
    let r := wsConnect { c with hasSocket := false }
    (r.1, closeActs ++ r.2)

/-- `WebsocketClient.stop` (`ws_client.py:193-200`): close the socket and
set it to `None`. -/
def wsStop (c : WSClient) : WSClient × List WSAction :=
  ({ c with hasSocket := false },
   if c.hasSocket then [WSAction.closeSocket] else [])

/-- `WebsocketClient._on_ws_error` for an error carrying HTTP status 401
(`ws_client.py:240-250`): set `ws_handshake_error`, clear the open event,
and stop the socket. -/
def wsOnError401 (c : WSClient) : WSClient × List WSAction :=
  let r := wsStop { c with handshakeError := true, wsOpen := false }
  (r.1, r.2)

/-- `WebsocketClient._on_ws_close` (`ws_client.py:261-273`): clear the open
event, cancel the stability timer, and call `reconnect`. -/
def wsOnClose (c : WSClient) : WSClient × List WSAction :=
  wsReconnect { c with wsOpen := false, stableTimer := false }

/-- `WebsocketClient._on_ws_open` (`ws_client.py:303-306`): start the
stability timer and set the open event. -/
def wsOnOpen (c : WSClient) : WSClient :=
  { c with wsOpen := true, stableTimer := true }

/-- Expiry of the stability timer (`ws_client.py:275-295`): ten seconds
after a successful open, `connection_attempts` is reset to zero. -/
def wsStabilityFire (c : WSClient) : WSClient :=
  { c with attempts := 0, stableTimer := false }

/-- Number of dials in an action list. -/
def countDials (acts : List WSAction) : Nat :=
  acts.countP (· = WSAction.dial)

/-- Run `n` reconnect-eligible close events (each delivered to
`_on_ws_close`) with no intervening stability-timer expiry, counting the
dials performed. -/
def wsRunCloses (c : WSClient) : Nat → WSClient × Nat
  | 0 => (c, 0)
  | n + 1 =>
    let r := wsOnClose c
    let rest := wsRunCloses r.1 n
    (rest.1, countDials r.2 + rest.2)

/-- The number of dial attempts made after the first failure: start a
fresh client with `max_retries = m`, dial once, then deliver `n`
reconnect-eligible closes (no 10-second stable window in between). -/
def dialsAfterFirstFailure (m : Int) (n : Nat) : Nat :=
  (wsRunCloses (wsConnect (wsInit m)).1 n).2

/-! ## Exit codes and `get_config_id` (`src/c8ylp/cli/core.py`) -/

/-- Exit codes (`src/c8ylp/cli/core.py:42-62`). -/
def EXIT_OK : Nat := 0
def EXIT_NO_SESSION : Nat := 2
def EXIT_NOT_AUTHORIZED : Nat := 3
def EXIT_DEVICE_MISSING_REMOTE_ACCESS_FRAGMENT : Nat := 5
def EXIT_DEVICE_NO_PASSTHROUGH_CONFIG : Nat := 6
def EXIT_DEVICE_NO_MATCHING_PASSTHROUGH_CONFIG : Nat := 7
def EXIT_MISSING_ROLE_REMOTE_ACCESS_ADMIN : Nat := 8
def EXIT_SSH_NOT_FOUND : Nat := 10
def EXIT_TIMEOUT_WAIT_FOR_PORT : Nat := 11
def EXIT_COMMAND_NOT_FOUND : Nat := 12

/-- One entry of the `c8y_RemoteAccessList` fragment: `name`, `protocol`
and `id` keys may each be absent. -/
structure RAConfig where
  name : Option (List Char)
  protocol : Option (List Char)
  id : Option (List Char)
  deriving DecidableEq, Repr

/-- A managed object as consumed by `get_config_id`: the
`c8y_RemoteAccessList` fragment is `none` when absent. -/
structure ManagedObject where
  remoteAccessList : Option (List RAConfig)
  deriving DecidableEq, Repr

/-- Result of `get_config_id`: either `ctx.exit(code)` or the `id` value
of the selected configuration (which is itself optional, `item.get("id")`). -/
inductive ConfigResult where
  | exit (code : Nat)
  | ok (id : Option (List Char))
  deriving DecidableEq, Repr

/-- Model of Python `str.casefold` (ASCII case folding suffices for the
protocol and configuration names handled here). -/
def caseFold (s : List Char) : List Char := s.map Char.toLower

/-- The `PASSTHROUGH` protocol constant (`src/c8ylp/cli/core.py:244`). -/
def PASSTHROUGH : List Char := String.data "PASSTHROUGH"

/-- Whether an entry passes the `valid_configs` filter
(`src/c8ylp/cli/core.py:448-452`): its `protocol` equals `PASSTHROUGH`. -/
def isPassthrough (item : RAConfig) : Bool :=
  item.protocol = some PASSTHROUGH

/-- Whether an entry's name matches the requested config name
case-insensitively (`src/c8ylp/cli/core.py:475-479`); a missing name
defaults to the empty string. -/
def nameMatches (config : List Char) (item : RAConfig) : Bool :=
  caseFold (item.name.getD []) = caseFold config

/-- `get_config_id` (`src/c8ylp/cli/core.py:430-490`). `config = []`
models the empty (falsy) requested configuration name. -/
def get_config_id (mor : ManagedObject) (config : List Char) : ConfigResult :=
  match mor.remoteAccessList with
  | none => ConfigResult.exit EXIT_DEVICE_MISSING_REMOTE_ACCESS_FRAGMENT
  | some items =>
    let valid := items.filter isPassthrough
    match valid with
    | [] => ConfigResult.exit EXIT_DEVICE_NO_PASSTHROUGH_CONFIG
    | first :: _ =>
      if config.isEmpty then
        ConfigResult.ok first.id
      else
        match valid.filter (nameMatches config) with
        | [] => ConfigResult.exit EXIT_DEVICE_NO_MATCHING_PASSTHROUGH_CONFIG
        | m :: _ => ConfigResult.ok m.id

/-- The `max_retries` value passed to `WebsocketClient` by `start_proxy`
(`src/c8ylp/cli/core.py:623-632`): the literal `2`, whatever the
configured `--reconnects` value is. -/
def start_proxy_max_retries (_reconnects : Int) : Int := 2

/-! ## Cumulocity REST client (`src/c8ylp/rest_client/c8yclient.py`) -/

/-- The base URL computed by `CumulocityClient.__init__`
(`src/c8ylp/rest_client/c8yclient.py:91-96`): the hostname unchanged when
it starts with `http`, otherwise `https://` prepended. -/
def c8y_url (hostname : List Char) : List Char :=
  if (String.data "http").isPrefixOf hostname then hostname
  else String.data "https://" ++ hostname

/-- The credential fields of `CumulocityClient` touched by
`validate_credentials`. -/
structure ClientCreds where
  token : List Char
  password : List Char
  deriving DecidableEq, Repr

/-- The parts of an HTTP response read by `validate_credentials`:
the status code, the `content-type` header (`none` when absent), and the
JSON body (`none` when the body is not a JSON object; otherwise the list
of its keys suffices here). -/
structure HttpResponse where
  statusCode : Nat
  contentType : Option (List Char)
  jsonKeys : Option (List (List Char))
  deriving DecidableEq, Repr

/-- Outcome of `validate_credentials`: normal return `True`, a raised
`PermissionError`, a raised `TypeError` (from calling a `dict`), or a
raised JSON decode error. -/
inductive ValidateOutcome where
  | ok
  | permissionError
  | typeError
  | jsonDecodeError
  deriving DecidableEq, Repr

/-- `CumulocityClient.validate_credentials`
(`src/c8ylp/rest_client/c8yclient.py:195-224`): status 200 returns `True`
with the client untouched. Otherwise, when the `content-type` header is
`application/json` the body is decoded (a decode failure raises before
anything is cleared) and, when it carries a `message` key, the statement
`message = response_json()` calls the decoded `dict` and raises
`TypeError` — also before anything is cleared. In the remaining cases
`token` and `password` are cleared and `PermissionError` is raised. -/
def validate_credentials (c : ClientCreds) (r : HttpResponse) :
    ClientCreds × ValidateOutcome :=
  if r.statusCode = 200 then (c, ValidateOutcome.ok)
  else if r.contentType = some (String.data "application/json") then
    match r.jsonKeys with
    | none => (c, ValidateOutcome.jsonDecodeError)
    | some keys =>
      if keys.contains (String.data "message") then
        (c, ValidateOutcome.typeError)
      else
        ({ token := [], password := [] }, ValidateOutcome.permissionError)
  else
    ({ token := [], password := [] }, ValidateOutcome.permissionError)

/-! ## `connect ssh` command (`src/c8ylp/cli/connect/ssh.py`) -/

/-- Observable actions of the `connect ssh` command. `restResolve` covers
the pre-start REST calls of `pre_start_checks`, `tcpServe` the start of
the local TCP server thread, `wsDial` a websocket dial, `spawnSsh` the
ssh subprocess call. -/
inductive CliAction where
  | restResolve
  | tcpServe
  | wsDial
  | spawnSsh (args : List String)
  deriving DecidableEq, Repr

/-- Modelled from the spec: the `TCPProxyServer` class is not present
under `src/` (only its callers and subclasses are). Per §4.2 of the spec,
the per-connection loop calls `Connect()` on the websocket client only
after a local client connection has been accepted; starting the server
(`ProxyContext.start_background`, `src/c8ylp/cli/core.py:152-167`)
therefore performs the pre-start REST resolution and starts the TCP
listener, but dials no websocket while no local client has connected. -/
def startBackgroundActions : List CliAction :=
  [CliAction.restResolve, CliAction.tcpServe]

/-- The ssh argument vector built by the `connect ssh` command
(`src/c8ylp/cli/connect/ssh.py:85-99`). -/
def ssh_args (port : Nat) (user : String) (additionalArgs : List String) :
    List String :=
  ["ssh",
   "-o", "ServerAliveInterval=120",
   "-o", "StrictHostKeyChecking=no",
   "-o", "UserKnownHostsFile=/dev/null",
   "-p", toString port,
   user ++ "@localhost"] ++ additionalArgs

/-- The `connect ssh` command body (`src/c8ylp/cli/connect/ssh.py:74-108`):
start the proxy in the background, then exit `SSH_NOT_FOUND` when no ssh
executable is on the `PATH`; otherwise spawn ssh and propagate the
subprocess exit code. `sshExit` is the exit code returned by
`subprocess.call`. -/
def connect_ssh_run (sshOnPath : Bool) (port : Nat) (user : String)
    (additionalArgs : List String) (sshExit : Int) : Int × List CliAction :=
  if !sshOnPath then
    ((EXIT_SSH_NOT_FOUND : Nat), startBackgroundActions)
  else
    (sshExit,
     startBackgroundActions ++ [CliAction.spawnSsh (ssh_args port user additionalArgs)])

/-! ## Spec-side definitions (written from the claims' words, for
refinement comparisons and counterexamples) -/

/-- Spec wording of claim C3: the resolution returns the id of the first
entry of `c8y_RemoteAccessList` whose protocol equals `PASSTHROUGH` and
whose name matches the requested name case-insensitively (the first
`PASSTHROUGH` entry when no name is requested); exit 5 when the fragment
is absent, exit 6 when no `PASSTHROUGH` entry exists, exit 7 when a name
is requested and no `PASSTHROUGH` entry matches it. -/
def specConfigResolution (mor : ManagedObject) (config : List Char) : ConfigResult :=
  match mor.remoteAccessList with
  | none => ConfigResult.exit EXIT_DEVICE_MISSING_REMOTE_ACCESS_FRAGMENT
  | some items =>
    if items.all (fun i => !isPassthrough i) then
      ConfigResult.exit EXIT_DEVICE_NO_PASSTHROUGH_CONFIG
    else if !config.isEmpty && items.all (fun i => !(isPassthrough i && nameMatches config i)) then
      ConfigResult.exit EXIT_DEVICE_NO_MATCHING_PASSTHROUGH_CONFIG
    else
      match items.find? (fun i => isPassthrough i && (config.isEmpty || nameMatches config i)) with
      | some item => ConfigResult.ok item.id
      | none => ConfigResult.exit EXIT_DEVICE_NO_MATCHING_PASSTHROUGH_CONFIG

/-- The literal ignore condition of claim C6: the (raw) line is empty or
whitespace-only, or starts with a hash or a semicolon. -/
def claimC6Skips (line : List Char) : Bool :=
  line.all pyWhitespace || line.head? = some '#' || line.head? = some ';'

/-- The literal value handling of claim C6: a value wrapped in single
quotes has the quotes stripped with no expansion; every other value
(double-quoted or unquoted) is expanded with no quote stripping. -/
def claimC6Value (env : Env) (value : List Char) : List Char :=
  if value.head? = some squote && value.getLast? = some squote then
    pyStripChar squote value
  else
    expandvars env value

/-- Amended spec wording of claim C6, per line: the line is ignored
exactly when its whitespace-stripped form is empty or starts with a hash
or a semicolon; otherwise the stripped form is split as KEY=VALUE at the
first equals sign; a VALUE with a single quote at both ends has the
boundary single quotes stripped and undergoes no expansion; a VALUE with
a double quote at both ends has the boundary double quotes stripped and
is then expanded; an unquoted VALUE is expanded. -/
def specEnvLine (env : Env) (line : List Char) : Option (List Char × List Char) :=
  let stripped := pyStrip line
  match stripped with
  | [] => none
  | c :: _ =>
    if c = '#' ∨ c = ';' then none
    else
      let key := partKey '=' stripped
      let value := partVal '=' stripped
      if value.head? = some squote ∧ value.getLast? = some squote then
        some (key, pyStripChar squote value)
      else if value.head? = some dquote ∧ value.getLast? = some dquote then
        some (key, expandvars env (pyStripChar dquote value))
      else
        some (key, expandvars env value)

/-- A key/value pair that survives the env-file round trip untouched:
nonempty key, no equals sign, newline or boundary whitespace in the key,
key not opening with a comment character, no newline or trailing
whitespace in the value, value neither quote-wrapped nor containing a
dollar sign. -/
def roundtripSafe (kv : List Char × List Char) : Bool :=
  let k := kv.1
  let v := kv.2
  !k.isEmpty
    && !k.any (fun c => c = '=' || c = '\n')
    && !pyWhitespace (k.headD '=')
    && !(k.head? = some '#') && !(k.head? = some ';')
    && !v.any (fun c => c = '\n' || c = '$')
    && !(pyWhitespace (v.getLastD '='))
    && !(v.head? = some squote && v.getLast? = some squote)
    && !(v.head? = some dquote && v.getLast? = some dquote)

/-! ## Theorems -/

/-- Claim C10: for every hostname string given to the Cumulocity client,
the base URL is the hostname unchanged exactly when it starts with
`http` (so any string beginning with `http`), and `https://` prepended to
the hostname in every other case. -/
theorem claim_c10_base_url (host : List Char) :
    (c8y_url host = host ↔ (String.data "http").isPrefixOf host = true)
  ∧ (c8y_url host = String.data "https://" ++ host
      ↔ (String.data "http").isPrefixOf host = false) := by
  cases hp : (String.data "http").isPrefixOf host with
  | true =>
    refine ⟨by simp [c8y_url, hp], ?_⟩
    simp only [c8y_url, hp, if_true]
    constructor
    · intro heq
      have hlen := congrArg List.length heq
      simp at hlen
      omega
    · intro hfalse
      exact absurd hfalse (by simp)
  | false =>
    refine ⟨?_, by simp [c8y_url, hp]⟩
    simp only [c8y_url, hp, Bool.false_eq_true, if_false]
    constructor
    · intro heq
      have hlen := congrArg List.length heq
      simp at hlen
      omega
    · intro htrue
      exact absurd htrue (by simp)

/-- Claim C7: for every assigned port, ssh user and list of remote
commands, the ssh subcommand invokes exactly the documented argument
vector followed by the remote commands in order, and the subprocess exit
code is propagated as the process exit code. -/
theorem claim_c7_ssh_argv (port : Nat) (user : String)
    (remoteCommands : List String) (sshExit : Int) :
    ssh_args port user remoteCommands =
      ["ssh", "-o", "ServerAliveInterval=120", "-o", "StrictHostKeyChecking=no",
       "-o", "UserKnownHostsFile=/dev/null", "-p", toString port,
       user ++ "@localhost"] ++ remoteCommands
  ∧ (connect_ssh_run true port user remoteCommands sshExit).1 = sshExit :=
  ⟨rfl, rfl⟩

/-- Claim C4: when the PATH contains no ssh executable the connect-ssh
command exits with `SSH_NOT_FOUND` (10) and no websocket dial happens
before that exit. -/
theorem claim_c4_ssh_not_found (port : Nat) (user : String)
    (remoteCommands : List String) (sshExit : Int) :
    (connect_ssh_run false port user remoteCommands sshExit).1 = EXIT_SSH_NOT_FOUND
  ∧ CliAction.wsDial ∉ (connect_ssh_run false port user remoteCommands sshExit).2 := by
  refine ⟨rfl, ?_⟩
  simp [connect_ssh_run, startBackgroundActions]

/-- Claim C2 (code bug evaluation): after a handshake HTTP 401 on the
first dial (with `max_retries = 2` as passed by `start_proxy`), the close
callback runs `reconnect`, which dials the websocket a second time — the
handshake-error flag notwithstanding — instead of never re-dialling. -/
theorem claim_c2_handshake_401_redials :
    WSAction.dial ∈
      (wsOnClose (wsOnError401 (wsConnect (wsInit (start_proxy_max_retries 5))).1).1).2
  ∧ (wsOnClose (wsOnError401 (wsConnect (wsInit (start_proxy_max_retries 5))).1).1).1.attempts = 2
  ∧ (wsOnError401 (wsConnect (wsInit (start_proxy_max_retries 5))).1).1.handshakeError = true := by
  decide

/-- Claim C8 (code bug evaluation): a non-200 response whose content type
is `application/json` and whose body carries a `message` key makes
`validate_credentials` raise `TypeError` (from `message = response_json()`)
with token and password left untouched; only the remaining non-200
responses clear both fields and raise `PermissionError`; a 200 response
returns normally with the fields unchanged. -/
theorem claim_c8_json_message_typeerror :
    validate_credentials { token := String.data "tok", password := String.data "pw" }
      { statusCode := 401, contentType := some (String.data "application/json"),
        jsonKeys := some [String.data "message"] }
      = ({ token := String.data "tok", password := String.data "pw" },
         ValidateOutcome.typeError)
  ∧ validate_credentials { token := String.data "tok", password := String.data "pw" }
      { statusCode := 401, contentType := none, jsonKeys := none }
      = ({ token := [], password := [] }, ValidateOutcome.permissionError)
  ∧ validate_credentials { token := String.data "tok", password := String.data "pw" }
      { statusCode := 200, contentType := none, jsonKeys := none }
      = ({ token := String.data "tok", password := String.data "pw" },
         ValidateOutcome.ok) := by
  decide

/-- Claim C1 counterexample: with `--reconnects 0` the claim promises
unlimited reconnection, but the code performs no dial at all after the
first failure (indeed `start_proxy` passes the literal `2`, and the
client's own rule stops when `connection_attempts >= max_retries`); with a
negative value the claim promises no re-dial, but the client re-dials. -/
theorem claim_c1_counterexample :
    dialsAfterFirstFailure 0 3 = 0 ∧ dialsAfterFirstFailure 0 3 ≠ 3
  ∧ dialsAfterFirstFailure (-1) 1 = 1 ∧ dialsAfterFirstFailure (-1) 1 ≠ 0
  ∧ start_proxy_max_retries 0 = 2 := by
  decide

/-- Helper for claim C1: unfolding of one close event when the reconnect
budget still allows a dial. -/
theorem wsOnClose_dial (c : WSClient)
    (hcond : ¬(c.maxRetries > -1 ∧ (c.attempts : Int) ≥ c.maxRetries)) :
    wsOnClose c
      = ({ c with wsOpen := false, stableTimer := false, hasSocket := true, attempts := c.attempts + 1 },
         (if c.hasSocket then [WSAction.closeSocket] else []) ++ [WSAction.dial]) := by
  simp [wsOnClose, wsReconnect, hcond, wsConnect]

/-- Helper for claim C1: unfolding of one close event when the reconnect
budget is exhausted. -/
theorem wsOnClose_stop (c : WSClient)
    (hcond : c.maxRetries > -1 ∧ (c.attempts : Int) ≥ c.maxRetries) :
    wsOnClose c
      = ({ c with wsOpen := false, stableTimer := false },
         (if c.hasSocket then [WSAction.closeSocket] else [])
           ++ [WSAction.shutdownRequest]) := by
  simp [wsOnClose, wsReconnect, hcond]

/-- Helper for claim C1: with a negative `max_retries`, every
reconnect-eligible close re-dials, so `n` closes produce `n` dials. -/
theorem wsRunCloses_count_neg (n : Nat) : ∀ c : WSClient,
    c.maxRetries < 0 → (wsRunCloses c n).2 = n := by
  induction n with
  | zero => intro c _; rfl
  | succ n ih =>
    intro c hc
    have hcond : ¬(c.maxRetries > -1 ∧ (c.attempts : Int) ≥ c.maxRetries) := by
      rintro ⟨h1, _⟩; omega
    have hstep : (wsRunCloses c (n + 1)).2
        = countDials (wsOnClose c).2 + (wsRunCloses (wsOnClose c).1 n).2 := rfl
    rw [hstep, wsOnClose_dial c hcond]
    have hrec := ih { c with wsOpen := false, stableTimer := false, hasSocket := true, attempts := c.attempts + 1 } (by simpa using hc)
    rw [hrec]
    cases c.hasSocket <;>
      simp [countDials, List.countP_append, List.countP_cons, List.countP_nil] <;>
      omega

/-- Helper for claim C1: with a non-negative `max_retries`, `n`
reconnect-eligible closes produce `min n (max_retries - attempts)` dials. -/
theorem wsRunCloses_count_nonneg (n : Nat) : ∀ c : WSClient,
    0 ≤ c.maxRetries →
    (wsRunCloses c n).2 = min n (c.maxRetries.toNat - c.attempts) := by
  induction n with
  | zero => intro c _; simp [wsRunCloses]
  | succ n ih =>
    intro c hc
    have hstep : (wsRunCloses c (n + 1)).2
        = countDials (wsOnClose c).2 + (wsRunCloses (wsOnClose c).1 n).2 := rfl
    by_cases hcond : c.maxRetries > -1 ∧ (c.attempts : Int) ≥ c.maxRetries
    · have hend : c.maxRetries.toNat ≤ c.attempts := by
        have h2 := hcond.2
        omega
      rw [hstep, wsOnClose_stop c hcond]
      have hrec := ih { c with wsOpen := false, stableTimer := false } (by simpa using hc)
      rw [hrec]
      cases c.hasSocket <;>
        simp [countDials, List.countP_append, List.countP_cons, List.countP_nil] <;>
        omega
    · have hlt : c.attempts < c.maxRetries.toNat := by
        rcases not_and_or.mp hcond with h1 | h2
        · omega
        · have h3 := lt_of_not_ge h2
          omega
      rw [hstep, wsOnClose_dial c hcond]
      have hrec := ih { c with wsOpen := false, stableTimer := false, hasSocket := true, attempts := c.attempts + 1 } (by simpa using hc)
      rw [hrec]
      cases c.hasSocket <;>
        simp [countDials, List.countP_append, List.countP_cons, List.countP_nil] <;>
        omega

/-- Claim C1 amended: `start_proxy` passes the literal `max_retries = 2`
to the websocket client regardless of the configured `--reconnects`; in
the client, a negative `max_retries` gives unlimited reconnection (every
reconnect-eligible close re-dials), while `max_retries = m >= 0` re-dials
only while `connection_attempts < m`, so with no intervening 10-second
stable window the number of dial attempts after the first failure is
exactly `min n (m - 1)` over `n` closes (in particular at most `m - 1`,
and zero when `m = 0`); when the budget is exhausted the client instead
invokes the shutdown-request callback. -/
theorem claim_c1_amended (r : Int) (m : Int) (n : Nat) :
    start_proxy_max_retries r = 2
  ∧ (0 ≤ m → dialsAfterFirstFailure m n = min n (m.toNat - 1))
  ∧ (m < 0 → dialsAfterFirstFailure m n = n)
  ∧ (∀ c : WSClient, 0 ≤ c.maxRetries → (c.attempts : Int) ≥ c.maxRetries →
      WSAction.dial ∉ (wsOnClose c).2 ∧ WSAction.shutdownRequest ∈ (wsOnClose c).2) := by
  have hinit : (wsConnect (wsInit m)).1
      = { maxRetries := m, attempts := 1, wsOpen := false,
          handshakeError := false, hasSocket := true, stableTimer := false } := rfl
  refine ⟨rfl, ?_, ?_, ?_⟩
  · intro hm
    have h := wsRunCloses_count_nonneg n (wsConnect (wsInit m)).1
    rw [hinit] at h
    exact h hm
  · intro hm
    have h := wsRunCloses_count_neg n (wsConnect (wsInit m)).1
    rw [hinit] at h
    exact h hm
  · intro c hge hatt
    have hcond : c.maxRetries > -1 ∧ (c.attempts : Int) ≥ c.maxRetries :=
      ⟨by omega, hatt⟩
    rw [wsOnClose_stop c hcond]
    cases c.hasSocket <;> simp

/-- Witness for the amended claim C1 theorem at concrete inputs. -/
theorem claim_c1_amended_witness :
    dialsAfterFirstFailure 2 5 = min 5 (Int.toNat 2 - 1)
  ∧ dialsAfterFirstFailure (-1) 4 = 4
  ∧ (WSAction.dial ∉ (wsOnClose (wsInit 0)).2
      ∧ WSAction.shutdownRequest ∈ (wsOnClose (wsInit 0)).2) :=
  ⟨(claim_c1_amended 0 2 5).2.1 (by decide),
   (claim_c1_amended 0 (-1) 4).2.2.1 (by decide),
   (claim_c1_amended 0 0 0).2.2.2 (wsInit 0) (by decide) (by decide)⟩

/-- Helper: the first element satisfying a predicate is the head of the
filtered list. -/
theorem find?_eq_head?_filter {α : Type} (p : α → Bool) :
    ∀ l : List α, l.find? p = (l.filter p).head? := by
  intro l
  induction l with
  | nil => rfl
  | cons a t ih =>
    cases h : p a with
    | true => simp only [List.find?_cons, List.filter_cons, h, if_true, List.head?_cons]
    | false => simp only [List.find?_cons, List.filter_cons, h, if_false, ih,
        Bool.false_eq_true, cond_false]

/-- Claim C3: config-id resolution returns the id of the first entry of
`c8y_RemoteAccessList` whose protocol equals `PASSTHROUGH` and whose name
matches the requested name case-insensitively (the first `PASSTHROUGH`
entry when no name is requested); it exits 5 exactly when the fragment is
absent, 6 exactly when (the fragment being present) no `PASSTHROUGH`
entry exists, and 7 exactly when a name is requested and no `PASSTHROUGH`
entry matches it: the code equals the resolution written from the claim's
words. -/
theorem claim_c3_config_resolution (mor : ManagedObject) (config : List Char) :
    get_config_id mor config = specConfigResolution mor config := by
  obtain ⟨ral⟩ := mor
  cases ral with
  | none => rfl
  | some items =>
    cases hv : items.filter isPassthrough with
    | nil =>
      have hall : items.all (fun i => !isPassthrough i) = true := by
        rw [List.all_eq_true]
        intro a ha
        have hna := (List.filter_eq_nil_iff.mp hv) a ha
        simpa using hna
      have hcode : get_config_id ⟨some items⟩ config
          = ConfigResult.exit EXIT_DEVICE_NO_PASSTHROUGH_CONFIG := by
        have h1 : get_config_id ⟨some items⟩ config
            = (match items.filter isPassthrough with
               | [] => ConfigResult.exit EXIT_DEVICE_NO_PASSTHROUGH_CONFIG
               | first :: _ =>
                 if config.isEmpty then ConfigResult.ok first.id
                 else
                   match (items.filter isPassthrough).filter (nameMatches config) with
                   | [] => ConfigResult.exit EXIT_DEVICE_NO_MATCHING_PASSTHROUGH_CONFIG
                   | m :: _ => ConfigResult.ok m.id) := rfl
        rw [h1, hv]
      rw [hcode]
      simp only [specConfigResolution, if_pos hall]
    | cons first rest =>
      have hcode : get_config_id ⟨some items⟩ config
          = (if config.isEmpty then ConfigResult.ok first.id
             else
               match (first :: rest).filter (nameMatches config) with
               | [] => ConfigResult.exit EXIT_DEVICE_NO_MATCHING_PASSTHROUGH_CONFIG
               | m :: _ => ConfigResult.ok m.id) := by
        have h1 : get_config_id ⟨some items⟩ config
            = (match items.filter isPassthrough with
               | [] => ConfigResult.exit EXIT_DEVICE_NO_PASSTHROUGH_CONFIG
               | f :: _ =>
                 if config.isEmpty then ConfigResult.ok f.id
                 else
                   match (items.filter isPassthrough).filter (nameMatches config) with
                   | [] => ConfigResult.exit EXIT_DEVICE_NO_MATCHING_PASSTHROUGH_CONFIG
                   | m :: _ => ConfigResult.ok m.id) := rfl
        rw [h1, hv]
      rw [hcode]
      have hnall : ¬(items.all (fun i => !isPassthrough i) = true) := by
        rw [List.all_eq_true]
        intro hall
        have hfirst : first ∈ items.filter isPassthrough := by
          rw [hv]; exact List.mem_cons_self _ _
        have hmem := List.mem_filter.mp hfirst
        have hfa := hall first hmem.1
        simp [hmem.2] at hfa
      have hff : (first :: rest).filter (nameMatches config)
          = items.filter (fun i => isPassthrough i && nameMatches config i) := by
        rw [← hv, List.filter_filter]
        congr 1
        funext a
        rw [Bool.and_comm]
      by_cases hconf : config.isEmpty = true
      · have hfind : items.find?
            (fun i => isPassthrough i && (config.isEmpty || nameMatches config i))
            = some first := by
          have hsimp : (fun i => isPassthrough i && (config.isEmpty || nameMatches config i))
              = fun i => isPassthrough i := by
            funext i
            rw [hconf]
            simp
          rw [hsimp, find?_eq_head?_filter]
          have hfilter2 : items.filter (fun i => isPassthrough i) = first :: rest := hv
          rw [hfilter2]
          rfl
        have hc2 : ¬((!config.isEmpty
            && items.all (fun i => !(isPassthrough i && nameMatches config i))) = true) := by
          rw [hconf]
          simp
        simp only [specConfigResolution, if_neg hnall, if_neg hc2, hfind, if_pos hconf]
      · have hcfalse : config.isEmpty = false := by
          cases hcv : config.isEmpty
          · rfl
          · exact absurd hcv hconf
        rw [if_neg hconf]
        cases hm : (first :: rest).filter (nameMatches config) with
        | nil =>
          have hall2 : items.all (fun i => !(isPassthrough i && nameMatches config i)) = true := by
            rw [List.all_eq_true]
            intro a ha
            rw [hff] at hm
            have hna := (List.filter_eq_nil_iff.mp hm) a ha
            cases hpa : isPassthrough a <;> cases hnb : nameMatches config a <;> simp_all
          have hc2 : (!config.isEmpty
              && items.all (fun i => !(isPassthrough i && nameMatches config i))) = true := by
            rw [hcfalse, hall2]
            rfl
          simp only [specConfigResolution, if_neg hnall, if_pos hc2]
        | cons m ms =>
          have hnall2 : ¬(items.all (fun i => !(isPassthrough i && nameMatches config i)) = true) := by
            rw [List.all_eq_true]
            intro hall2
            have hmmem : m ∈ (first :: rest).filter (nameMatches config) := by
              rw [hm]; exact List.mem_cons_self _ _
            rw [hff] at hmmem
            have hmem := List.mem_filter.mp hmmem
            have hfa := hall2 m hmem.1
            rw [hmem.2] at hfa
            simp at hfa
          have hc2 : ¬((!config.isEmpty
              && items.all (fun i => !(isPassthrough i && nameMatches config i))) = true) := by
            rw [hcfalse]
            simpa using hnall2
          have hfind2 : items.find?
              (fun i => isPassthrough i && (config.isEmpty || nameMatches config i))
              = some m := by
            have hsimp : (fun i => isPassthrough i && (config.isEmpty || nameMatches config i))
                = fun i => isPassthrough i && nameMatches config i := by
              funext i
              rw [hcfalse]
              simp
            rw [hsimp, find?_eq_head?_filter]
            have hfilter3 : items.filter (fun i => isPassthrough i && nameMatches config i)
                = m :: ms := by
              rw [← hff, hm]
            rw [hfilter3]
            rfl
          simp only [specConfigResolution, if_neg hnall, if_neg hc2, hfind2]

/-- Claim C6 counterexample: the line made of two spaces, a hash and a
letter is ignored by `loadenv` although the claim's ignore condition
(empty/whitespace-only, or starting with a hash or a semicolon) does not
hold for it; and a double-quoted value has its quotes stripped by the
code, while the claim's letter (expansion only for double-quoted or
unquoted values) leaves the quotes in place. -/
theorem claim_c6_counterexample :
    loadenvLine [] (String.data "  #c") = none
  ∧ claimC6Skips (String.data "  #c") = false
  ∧ loadenvValue [] [dquote, 'a', dquote] = ['a']
  ∧ claimC6Value [] [dquote, 'a', dquote] = [dquote, 'a', dquote] := by
  decide

/-- Claim C6 amended: per line, `loadenv` ignores the line exactly when
its whitespace-stripped form is empty or starts with a hash or a
semicolon; otherwise the stripped form is split as KEY=VALUE at the first
equals sign, a single-quote-wrapped VALUE has the boundary quotes
stripped with no expansion, a double-quote-wrapped VALUE has the boundary
quotes stripped and is expanded, and an unquoted VALUE is expanded from
the current environment: the code's per-line behaviour equals the
description written from these words. -/
theorem claim_c6_amended_line (env : Env) (line : List Char) :
    loadenvLine env line = specEnvLine env line := by
  unfold loadenvLine specEnvLine loadenvSkips loadenvValue
  cases hs : pyStrip line with
  | nil => simp
  | cons c t =>
    by_cases hc : c = '#' ∨ c = ';'
    · rcases hc with hc | hc <;> subst hc <;> simp
    · push_neg at hc
      have h1 : (((c :: t).isEmpty || (c :: t).head? = some '#')
          || (c :: t).head? = some ';') = false := by
        simp [hc.1, hc.2]
      rw [h1]
      simp only [Bool.false_eq_true, if_false, if_neg (not_or.mpr hc)]
      simp only [Bool.and_eq_true, decide_eq_true_eq]
      split_ifs <;> rfl

/-- Helper: an element of a list retrieved with a default is a member
when the index is in range. -/
theorem mem_of_getD {α : Type} (l : List α) (i : Nat) (d : α) (h : i < l.length) :
    l.getD i d ∈ l := by
  rw [List.getD_eq_getElem?_getD, List.getElem?_eq_getElem h]
  exact List.getElem_mem h

/-- Helper: stripping leaves a list unchanged when neither end is
whitespace. -/
theorem pyStrip_eq_self (l : List Char)
    (h1 : ∀ c, l.head? = some c → pyWhitespace c = false)
    (h2 : ∀ c, l.getLast? = some c → pyWhitespace c = false) :
    pyStrip l = l := by
  unfold pyStrip
  have hd : l.dropWhile pyWhitespace = l := by
    cases l with
    | nil => rfl
    | cons a t =>
      rw [List.dropWhile_cons]
      rw [h1 a rfl]
      simp
  rw [hd]
  have hr : l.reverse.dropWhile pyWhitespace = l.reverse := by
    cases hrl : l.reverse with
    | nil => rfl
    | cons a t =>
      rw [List.dropWhile_cons]
      have ha : l.getLast? = some a := by
        rw [← List.head?_reverse, hrl]
        rfl
      rw [h2 a ha]
      simp
  rw [hr, List.reverse_reverse]

/-- Helper: taking up to the separator in a well-formed KEY=VALUE line
yields the key. -/
theorem takeWhile_append_sep (k v : List Char) (hk : ∀ c ∈ k, c ≠ '=') :
    List.takeWhile (· ≠ '=') (k ++ '=' :: v) = k := by
  induction k with
  | nil => simp
  | cons a t ih =>
    have ha : a ≠ '=' := hk a (List.mem_cons_self a t)
    have iht := ih (fun c hc => hk c (List.mem_cons_of_mem a hc))
    simp only [decide_not] at iht
    simp [List.takeWhile_cons, ha, iht]

/-- Helper: dropping up to the separator in a well-formed KEY=VALUE line
yields the separator and the value. -/
theorem dropWhile_append_sep (k v : List Char) (hk : ∀ c ∈ k, c ≠ '=') :
    List.dropWhile (· ≠ '=') (k ++ '=' :: v) = '=' :: v := by
  induction k with
  | nil => simp
  | cons a t ih =>
    have ha : a ≠ '=' := hk a (List.mem_cons_self a t)
    have iht := ih (fun c hc => hk c (List.mem_cons_of_mem a hc))
    simp only [decide_not] at iht
    simp [List.dropWhile_cons, ha, iht]

/-- Helper: the part before the separator in a well-formed KEY=VALUE
line is the key. -/
theorem partKey_mkLine (k v : List Char) (hk : ∀ c ∈ k, c ≠ '=') :
    partKey '=' (mkLine k v) = k :=
  takeWhile_append_sep k v hk

/-- Helper: the part after the separator in a well-formed KEY=VALUE line
is the value. -/
theorem partVal_mkLine (k v : List Char) (hk : ∀ c ∈ k, c ≠ '=') :
    partVal '=' (mkLine k v) = v := by
  unfold partVal mkLine
  rw [dropWhile_append_sep k v hk]
  rfl

/-- Helper: expansion is the identity on values containing no dollar
sign. -/
theorem expandvarsF_no_dollar (env : Env) :
    ∀ (fuel : Nat) (v : List Char), v.length < fuel →
    (∀ c ∈ v, c ≠ '$') → expandvarsF env fuel v = v := by
  intro fuel
  induction fuel with
  | zero => intro v hv _; omega
  | succ fuel ih =>
    intro v hv hdol
    cases v with
    | nil => rfl
    | cons c rest =>
      have hc : c ≠ '$' := hdol c (List.mem_cons_self c rest)
      show (if c = '$' then _ else c :: expandvarsF env fuel rest) = c :: rest
      rw [if_neg hc]
      rw [ih rest (by simp at hv; omega)
        (fun d hd => hdol d (List.mem_cons_of_mem c hd))]

/-- Helper: expansion is the identity on values containing no dollar
sign (total form). -/
theorem expandvars_no_dollar (env : Env) (v : List Char)
    (hdol : ∀ c ∈ v, c ≠ '$') : expandvars env v = v :=
  expandvarsF_no_dollar env (v.length + 1) v (Nat.lt_succ_self _) hdol

/-- Helper: a raw line key never contains the separator. -/
theorem lineKey_no_eq (l : List Char) : ∀ c ∈ lineKey l, c ≠ '=' := by
  intro c hc
  have h := List.mem_takeWhile_imp hc
  simpa using h

/-- Helper: the raw key of a well-formed KEY=VALUE line is the key. -/
theorem lineKey_mkLine (k v : List Char) (hk : ∀ c ∈ k, c ≠ '=') :
    lineKey (mkLine k v) = k :=
  partKey_mkLine k v hk

/-- Helper: unpacking of the round-trip safety predicate. -/
theorem roundtripSafe_spec (k v : List Char) (h : roundtripSafe (k, v) = true) :
    k ≠ []
  ∧ (∀ c ∈ k, c ≠ '=')
  ∧ (∀ c, k.head? = some c → pyWhitespace c = false ∧ c ≠ '#' ∧ c ≠ ';')
  ∧ (∀ c ∈ v, c ≠ '$')
  ∧ (∀ c, v.getLast? = some c → pyWhitespace c = false)
  ∧ ¬(v.head? = some squote ∧ v.getLast? = some squote)
  ∧ ¬(v.head? = some dquote ∧ v.getLast? = some dquote) := by
  simp only [roundtripSafe, Bool.and_eq_true, Bool.not_eq_true', List.any_eq_false,
    Bool.or_eq_false_iff, decide_eq_false_iff_not, List.isEmpty_eq_false,
    decide_eq_true_eq, Bool.not_eq_true] at h
  obtain ⟨⟨⟨⟨⟨⟨⟨⟨hne, hkc⟩, hhw⟩, hh1⟩, hh2⟩, hvc⟩, hvl⟩, hsq⟩, hdq⟩ := h
  refine ⟨by simpa using hne, fun c hc => (hkc c hc).1, ?_, fun c hc => (hvc c hc).2, ?_, ?_, ?_⟩
  · intro c hc
    have hh : k.headD '=' = c := by
      cases k with
      | nil => simp at hc
      | cons a t =>
        simp at hc
        simp [hc]
    refine ⟨by rw [← hh]; exact hhw, ?_, ?_⟩
    · intro he; apply hh1; rw [← he, hc]
    · intro he; apply hh2; rw [← he, hc]
  · intro c hc
    have hh : v.getLastD '=' = c := by
      rw [List.getLastD_eq_getLast?, hc]
      rfl
    rw [← hh]
    exact hvl
  · intro hcontra
    rw [hcontra.1, hcontra.2] at hsq
    simp at hsq
  · intro hcontra
    rw [hcontra.1, hcontra.2] at hdq
    simp at hdq

/-- Helper: a line written for a round-trip-safe pair is not skipped and
parses back to exactly that pair, whatever the ambient environment. -/
theorem loadenvLine_mkLine_safe (k v : List Char) (h : roundtripSafe (k, v) = true)
    (env : Env) : loadenvLine env (mkLine k v) = some (k, v) := by
  obtain ⟨hne, hkeq, hhead, hdol, hlast, hsq, hdq⟩ := roundtripSafe_spec k v h
  have hhead2 : (mkLine k v).head? = k.head? := by
    unfold mkLine
    cases k with
    | nil => exact absurd rfl hne
    | cons a t => rfl
  have hlast2 : ∀ c, (mkLine k v).getLast? = some c →
      (v = [] ∧ c = '=') ∨ v.getLast? = some c := by
    intro c hc
    unfold mkLine at hc
    cases hv : v with
    | nil =>
      subst hv
      rw [List.getLast?_append_cons] at hc
      simp at hc
      exact Or.inl ⟨rfl, hc.symm⟩
    | cons b u =>
      subst hv
      rw [List.getLast?_append_cons] at hc
      right
      rw [← hc, List.getLast?_cons_cons]
  have hstrip : pyStrip (mkLine k v) = mkLine k v := by
    apply pyStrip_eq_self
    · intro c hc
      rw [hhead2] at hc
      exact (hhead c hc).1
    · intro c hc
      rcases hlast2 c hc with ⟨hv0, hceq⟩ | hvl
      · subst hceq
        rfl
      · exact hlast c hvl
  have hskip : loadenvSkips (mkLine k v) = false := by
    unfold loadenvSkips
    rw [hstrip]
    cases hk : k with
    | nil => exact absurd hk hne
    | cons a t =>
      have hha : (mkLine k v).head? = some a := by rw [hhead2, hk]; rfl
      have ha := hhead a (by rw [hk]; rfl)
      simp only [hk] at hha ⊢
      simp only [mkLine, List.cons_append, List.head?_cons, List.isEmpty_cons]
      simp [ha.2.1, ha.2.2]
  have hkey : partKey '=' (pyStrip (mkLine k v)) = k := by
    rw [hstrip]
    exact partKey_mkLine k v hkeq
  have hval : partVal '=' (pyStrip (mkLine k v)) = v := by
    rw [hstrip]
    exact partVal_mkLine k v hkeq
  unfold loadenvLine
  rw [hskip]
  simp only [Bool.false_eq_true, if_false, hkey, hval]
  unfold loadenvValue
  rw [if_neg (by simpa using hsq), if_neg (by simpa using hdq)]
  rw [expandvars_no_dollar env v hdol]

/-- Helper: the key of a parsed line is its stripped raw key, whatever
the ambient environment. -/
theorem loadenvLine_key (env : Env) (line : List Char) (p : List Char × List Char)
    (h : loadenvLine env line = some p) : p.1 = loadKey line := by
  unfold loadenvLine at h
  by_cases hs : loadenvSkips line = true
  · rw [hs] at h
    simp at h
  · rw [Bool.not_eq_true] at hs
    rw [hs] at h
    simp only [Bool.false_eq_true, if_false, Option.some_inj] at h
    rw [← h]
    rfl

/-- Helper: looking up a key after inserting that key returns the
inserted value. -/
theorem envLookup_insert_same (e : Env) (k v : List Char) :
    envLookup (envInsert e k v) k = some v := by
  simp [envInsert, envLookup]

/-- Helper: looking up a key after inserting a different key is
unchanged. -/
theorem envLookup_insert_ne (e : Env) (k k2 v : List Char) (h : k2 ≠ k) :
    envLookup (envInsert e k2 v) k = envLookup e k := by
  simp [envInsert, envLookup, h]

/-- Helper: lines that are skipped or parse to a different key preserve a
lookup through `loadenv`. -/
theorem loadenv_lookup_preserved (k : List Char) :
    ∀ (lines : List (List Char)) (e0 : Env),
    (∀ l ∈ lines, loadenvSkips l = true ∨ loadKey l ≠ k) →
    envLookup (loadenv e0 lines) k = envLookup e0 k := by
  intro lines
  induction lines with
  | nil => intro e0 _; rfl
  | cons l ls ih =>
    intro e0 hall
    have hstep : loadenv e0 (l :: ls)
        = loadenv (match loadenvLine e0 l with
                   | none => e0
                   | some kv => envInsert e0 kv.1 kv.2) ls := rfl
    rw [hstep]
    rcases hall l (List.mem_cons_self l ls) with hskip | hkey
    · have hnone : loadenvLine e0 l = none := by
        unfold loadenvLine
        rw [hskip]
        rfl
      rw [hnone]
      exact ih e0 (fun x hx => hall x (List.mem_cons_of_mem l hx))
    · cases hline : loadenvLine e0 l with
      | none =>
        exact ih e0 (fun x hx => hall x (List.mem_cons_of_mem l hx))
      | some p =>
        have hp1 := loadenvLine_key e0 l p hline
        rw [ih _ (fun x hx => hall x (List.mem_cons_of_mem l hx))]
        exact envLookup_insert_ne e0 k p.1 p.2 (by rw [hp1]; exact hkey)

/-- Helper: when some line of the file parses (in every environment) to a
fixed binding for `k` and every line with stripped key `k` parses to that
same binding, the final environment binds `k` to that value. -/
theorem loadenv_lookup_value (k v0 : List Char) :
    ∀ (lines : List (List Char)) (e0 : Env),
    (∃ l ∈ lines, loadenvSkips l = false ∧ loadKey l = k) →
    (∀ l ∈ lines, loadKey l = k → ∀ e : Env, loadenvLine e l = some (k, v0)) →
    envLookup (loadenv e0 lines) k = some v0 := by
  intro lines
  induction lines with
  | nil => intro e0 hex _; simp at hex
  | cons l ls ih =>
    intro e0 hex hval
    have hstep : loadenv e0 (l :: ls)
        = loadenv (match loadenvLine e0 l with
                   | none => e0
                   | some kv => envInsert e0 kv.1 kv.2) ls := rfl
    by_cases hls : ∃ x ∈ ls, loadenvSkips x = false ∧ loadKey x = k
    · rw [hstep]
      cases hline : loadenvLine e0 l with
      | none => exact ih e0 hls (fun x hx => hval x (List.mem_cons_of_mem l hx))
      | some p =>
        exact ih _ hls (fun x hx => hval x (List.mem_cons_of_mem l hx))
    · obtain ⟨lw, hlw, hlw2⟩ := hex
      have hlwl : lw = l := by
        rcases List.mem_cons.mp hlw with h | h
        · exact h
        · exact absurd ⟨lw, h, hlw2⟩ hls
      subst hlwl
      have hparse := hval lw (List.mem_cons_self lw ls) hlw2.2 e0
      rw [hstep, hparse]
      rw [loadenv_lookup_preserved k ls (envInsert e0 k v0) ?hrest]
      · exact envLookup_insert_same e0 k v0
      case hrest =>
        intro x hx
        by_cases hxk : loadKey x = k
        · by_cases hxs : loadenvSkips x = true
          · exact Or.inl hxs
          · exact absurd ⟨x, hx, by rw [Bool.not_eq_true] at hxs; exact ⟨hxs, hxk⟩⟩ hls
        · exact Or.inr hxk

/-- Helper: one `save_env` step never shortens the output. -/
theorem saveEnvStep_length (file : List (List Char)) (acc : List (List Char) × Bool)
    (kv : List Char × List Char) :
    acc.1.length ≤ (saveEnvStep file acc kv).1.length := by
  unfold saveEnvStep
  by_cases hk : keyInFile file kv.1 = true
  · simp [hk, List.length_mapIdx]
  · simp only [Bool.not_eq_true] at hk
    simp [hk]

/-- Helper: the whole `save_env` fold never shortens the output. -/
theorem saveEnv_fold_length (file : List (List Char)) :
    ∀ (vs : List (List Char × List Char)) (out : List (List Char)) (ch : Bool),
    out.length ≤ ((vs.foldl (saveEnvStep file) (out, ch)).1).length := by
  intro vs
  induction vs with
  | nil => intro out ch; exact le_refl _
  | cons v vs ih =>
    intro out ch
    exact le_trans (saveEnvStep_length file (out, ch) v)
      (ih (saveEnvStep file (out, ch) v).1 (saveEnvStep file (out, ch) v).2)

/-- Helper: effect of one `save_env` step on a line at an original file
index. -/
theorem saveEnvStep_getD (file : List (List Char)) (out : List (List Char))
    (ch : Bool) (kv : List Char × List Char) (i : Nat)
    (hi : i < file.length) (hlen : file.length ≤ out.length) :
    (saveEnvStep file (out, ch) kv).1.getD i []
      = if keyInFile file kv.1 = true ∧ lineKey (file.getD i []) = kv.1
        then mkLine kv.1 kv.2 else out.getD i [] := by
  have hiout : i < out.length := lt_of_lt_of_le hi hlen
  unfold saveEnvStep
  by_cases hk : keyInFile file kv.1 = true
  · simp only [hk, if_true]
    rw [List.getD_eq_getElem?_getD, List.getElem?_mapIdx, List.getElem?_eq_getElem hiout]
    by_cases hkey : lineKey (file.getD i []) = kv.1
    · simp only [hi, hkey]
      simp [hk, hkey, List.getD_eq_getElem?_getD]
    · simp only [hi, hkey]
      simp [hk, hkey, List.getD_eq_getElem?_getD, List.getElem?_eq_getElem hiout]
  · simp only [Bool.not_eq_true] at hk
    simp only [hk, Bool.false_eq_true, if_false]
    rw [if_neg (by simp [hk])]
    rw [List.getD_eq_getElem?_getD, List.getD_eq_getElem?_getD,
      List.getElem?_append_left hiout]

/-- Helper: one `save_env` step leaves lines beyond the original file
untouched. -/
theorem saveEnvStep_getD_high (file : List (List Char)) (out : List (List Char))
    (ch : Bool) (kv : List Char × List Char) (j : Nat)
    (hj : file.length ≤ j) (hjo : j < out.length) :
    (saveEnvStep file (out, ch) kv).1.getD j [] = out.getD j [] := by
  unfold saveEnvStep
  by_cases hk : keyInFile file kv.1 = true
  · simp only [hk, if_true]
    rw [List.getD_eq_getElem?_getD, List.getElem?_mapIdx, List.getElem?_eq_getElem hjo]
    have hnj : ¬(j < file.length) := by omega
    simp [hnj, List.getD_eq_getElem?_getD, List.getElem?_eq_getElem hjo]
  · simp only [Bool.not_eq_true] at hk
    simp only [hk, Bool.false_eq_true, if_false]
    rw [List.getD_eq_getElem?_getD, List.getD_eq_getElem?_getD,
      List.getElem?_append_left hjo]

/-- Helper: the `save_env` fold leaves a line beyond the original file
untouched once it exists. -/
theorem saveEnv_fold_getD_high (file : List (List Char)) :
    ∀ (vs : List (List Char × List Char)) (out : List (List Char)) (ch : Bool)
    (j : Nat), file.length ≤ j → j < out.length →
    ((vs.foldl (saveEnvStep file) (out, ch)).1).getD j [] = out.getD j [] := by
  intro vs
  induction vs with
  | nil => intro out ch j _ _; rfl
  | cons v vs ih =>
    intro out ch j hj hjo
    have hstep := saveEnvStep_getD_high file out ch v j hj hjo
    have hjo2 : j < (saveEnvStep file (out, ch) v).1.length :=
      lt_of_lt_of_le hjo (saveEnvStep_length file (out, ch) v)
    have hrec := ih (saveEnvStep file (out, ch) v).1 (saveEnvStep file (out, ch) v).2
      j hj hjo2
    calc ((vs.foldl (saveEnvStep file) (saveEnvStep file (out, ch) v)).1).getD j []
        = (saveEnvStep file (out, ch) v).1.getD j [] := hrec
      _ = out.getD j [] := hstep

/-- Helper: the `save_env` fold leaves a line at an original index
untouched when no processed key is that line's key. -/
theorem saveEnv_fold_getD_other (file : List (List Char)) :
    ∀ (vs : List (List Char × List Char)) (out : List (List Char)) (ch : Bool)
    (i : Nat), i < file.length → file.length ≤ out.length →
    (∀ kv ∈ vs, lineKey (file.getD i []) ≠ kv.1) →
    ((vs.foldl (saveEnvStep file) (out, ch)).1).getD i [] = out.getD i [] := by
  intro vs
  induction vs with
  | nil => intro out ch i _ _ _; rfl
  | cons v vs ih =>
    intro out ch i hi hlen hkeys
    have hstep := saveEnvStep_getD file out ch v i hi hlen
    rw [if_neg (fun hc => hkeys v (List.mem_cons_self v vs) hc.2)] at hstep
    have hlen2 : file.length ≤ (saveEnvStep file (out, ch) v).1.length :=
      le_trans hlen (saveEnvStep_length file (out, ch) v)
    have hrec := ih (saveEnvStep file (out, ch) v).1 (saveEnvStep file (out, ch) v).2
      i hi hlen2 (fun kv hkv => hkeys kv (List.mem_cons_of_mem v hkv))
    calc ((vs.foldl (saveEnvStep file) (saveEnvStep file (out, ch) v)).1).getD i []
        = (saveEnvStep file (out, ch) v).1.getD i [] := hrec
      _ = out.getD i [] := hstep

/-- Helper: the `save_env` fold rewrites every original line whose raw
key is a processed key (keys being distinct). -/
theorem saveEnv_fold_getD_updated (file : List (List Char)) :
    ∀ (vs : List (List Char × List Char)) (out : List (List Char)) (ch : Bool)
    (kv : List Char × List Char), kv ∈ vs → (vs.map Prod.fst).Nodup →
    file.length ≤ out.length → kv.1 ≠ [] →
    ∀ i, i < file.length → lineKey (file.getD i []) = kv.1 →
    ((vs.foldl (saveEnvStep file) (out, ch)).1).getD i [] = mkLine kv.1 kv.2 := by
  intro vs
  induction vs with
  | nil => intro out ch kv hkv; simp at hkv
  | cons v vs ih =>
    intro out ch kv hkv hnd hlen hne i hi hkey
    have hlen2 : file.length ≤ (saveEnvStep file (out, ch) v).1.length :=
      le_trans hlen (saveEnvStep_length file (out, ch) v)
    rcases List.mem_cons.mp hkv with heq | hmem
    · subst heq
      have hinfile : keyInFile file kv.1 = true := by
        unfold keyInFile
        have hmem2 : file.getD i [] ∈ file := mem_of_getD file i [] hi
        have hany : file.any (fun l => lineKey l = kv.1) = true := by
          rw [List.any_eq_true]
          exact ⟨file.getD i [], hmem2, by simp only [decide_eq_true_eq]; exact hkey⟩
        rw [hany]
        cases hk : kv.1 with
        | nil => exact absurd hk hne
        | cons a t => simp [hk]
      have hstep := saveEnvStep_getD file out ch kv i hi hlen
      rw [if_pos ⟨hinfile, hkey⟩] at hstep
      have hkeys : ∀ kv2 ∈ vs, lineKey (file.getD i []) ≠ kv2.1 := by
        intro kv2 hkv2 hcontra
        have hnd2 := List.nodup_cons.mp hnd
        apply hnd2.1
        rw [List.mem_map]
        exact ⟨kv2, hkv2, by rw [← hcontra, hkey]⟩
      have hrec := saveEnv_fold_getD_other file vs (saveEnvStep file (out, ch) kv).1
        (saveEnvStep file (out, ch) kv).2 i hi hlen2 hkeys
      calc ((vs.foldl (saveEnvStep file) (saveEnvStep file (out, ch) kv)).1).getD i []
          = (saveEnvStep file (out, ch) kv).1.getD i [] := hrec
        _ = mkLine kv.1 kv.2 := hstep
    · exact ih (saveEnvStep file (out, ch) v).1 (saveEnvStep file (out, ch) v).2
        kv hmem (List.nodup_cons.mp hnd).2 hlen2 hne i hi hkey

/-- Helper: every line produced by one `save_env` step is an existing
line or the line written for the processed pair. -/
theorem mem_saveEnvStep (file : List (List Char)) (out : List (List Char))
    (ch : Bool) (kv : List Char × List Char) (l : List Char)
    (hl : l ∈ (saveEnvStep file (out, ch) kv).1) :
    l ∈ out ∨ l = mkLine kv.1 kv.2 := by
  unfold saveEnvStep at hl
  by_cases hk : keyInFile file kv.1 = true
  · simp only [hk, if_true] at hl
    obtain ⟨i, hi, heq⟩ := List.mem_iff_getElem.mp hl
    have hlen : i < out.length := by
      have := hi
      rw [List.length_mapIdx] at this
      exact this
    have hval : (out.mapIdx (fun i l =>
        if i < file.length && lineKey (file.getD i []) = kv.1
        then mkLine kv.1 kv.2 else l))[i] = (fun i l =>
        if i < file.length && lineKey (file.getD i []) = kv.1
        then mkLine kv.1 kv.2 else l) i out[i] := by
      have h1 := List.getElem?_mapIdx
        (f := fun i l => if i < file.length && lineKey (file.getD i []) = kv.1
          then mkLine kv.1 kv.2 else l) (l := out) (i := i)
      rw [List.getElem?_eq_getElem hi, List.getElem?_eq_getElem hlen] at h1
      simp only [Option.map_some'] at h1
      exact Option.some.inj h1
    rw [hval] at heq
    by_cases hcond : (i < file.length && lineKey (file.getD i []) = kv.1) = true
    · rw [← heq]
      right
      show (if (decide (i < file.length) && decide (lineKey (file.getD i []) = kv.1)) = true
          then mkLine kv.1 kv.2 else out[i]) = mkLine kv.1 kv.2
      rw [hcond]
      simp
    · rw [← heq]
      simp only [Bool.not_eq_true] at hcond
      simp only [hcond, Bool.false_eq_true, if_false]
      exact Or.inl (List.getElem_mem hlen)
  · simp only [Bool.not_eq_true] at hk
    simp only [hk, Bool.false_eq_true, if_false] at hl
    rcases List.mem_append.mp hl with h | h
    · exact Or.inl h
    · simp at h
      exact Or.inr h

/-- Helper: every line of the final `save_env` output is an existing line
or the line written for one of the saved pairs. -/
theorem saveEnv_fold_mem (file : List (List Char)) :
    ∀ (vs : List (List Char × List Char)) (out : List (List Char)) (ch : Bool)
    (l : List Char), l ∈ (vs.foldl (saveEnvStep file) (out, ch)).1 →
    l ∈ out ∨ ∃ kv ∈ vs, l = mkLine kv.1 kv.2 := by
  intro vs
  induction vs with
  | nil => intro out ch l hl; exact Or.inl hl
  | cons v vs ih =>
    intro out ch l hl
    rcases ih (saveEnvStep file (out, ch) v).1 (saveEnvStep file (out, ch) v).2 l hl with
      hstep | ⟨kv, hkv, heq⟩
    · rcases mem_saveEnvStep file out ch v l hstep with h | h
      · exact Or.inl h
      · exact Or.inr ⟨v, List.mem_cons_self v vs, h⟩
    · exact Or.inr ⟨kv, List.mem_cons_of_mem v hkv, heq⟩

/-- Helper: a pair saved whose key is not already in the file contributes
its own line to the final output. -/
theorem saveEnv_fold_new_mem (file : List (List Char)) :
    ∀ (vs : List (List Char × List Char)) (out : List (List Char)) (ch : Bool)
    (kv : List Char × List Char), kv ∈ vs → file.length ≤ out.length →
    mkLine kv.1 kv.2 ∈ (vs.foldl (saveEnvStep file) (out, ch)).1
      ∨ keyInFile file kv.1 = true := by
  intro vs
  induction vs with
  | nil => intro out ch kv hkv; simp at hkv
  | cons v vs ih =>
    intro out ch kv hkv hlen
    have hlen2 : file.length ≤ (saveEnvStep file (out, ch) v).1.length :=
      le_trans hlen (saveEnvStep_length file (out, ch) v)
    rcases List.mem_cons.mp hkv with heq | hmem
    · subst heq
      by_cases hk : keyInFile file kv.1 = true
      · exact Or.inr hk
      · left
        have hout2 : (saveEnvStep file (out, ch) kv).1 = out ++ [mkLine kv.1 kv.2] := by
          unfold saveEnvStep
          simp only [Bool.not_eq_true] at hk
          simp [hk]
        have hj : (saveEnvStep file (out, ch) kv).1.getD out.length [] = mkLine kv.1 kv.2 := by
          rw [hout2, List.getD_eq_getElem?_getD, List.getElem?_append_right (le_refl _)]
          simp
        have hjlt : out.length < (saveEnvStep file (out, ch) kv).1.length := by
          rw [hout2]
          simp
        have hpres := saveEnv_fold_getD_high file vs (saveEnvStep file (out, ch) kv).1
          (saveEnvStep file (out, ch) kv).2 out.length hlen hjlt
        have hjlt2 : out.length <
            ((vs.foldl (saveEnvStep file) (saveEnvStep file (out, ch) kv)).1).length :=
          lt_of_lt_of_le hjlt (saveEnv_fold_length file vs _ _)
        have hfinal :
            ((vs.foldl (saveEnvStep file) (saveEnvStep file (out, ch) kv)).1).getD
              out.length [] = mkLine kv.1 kv.2 := by rw [hpres, hj]
        rw [← hfinal]
        exact mem_of_getD _ out.length [] hjlt2
    · exact ih (saveEnvStep file (out, ch) v).1 (saveEnvStep file (out, ch) v).2
        kv hmem hlen2

/-- Helper: every line of the final output beyond the original file
length is the line written for one of the saved pairs. -/
theorem saveEnv_fold_high_is_new (file : List (List Char)) :
    ∀ (vs : List (List Char × List Char)) (out : List (List Char)) (ch : Bool)
    (j : Nat), file.length ≤ out.length → out.length ≤ j →
    j < ((vs.foldl (saveEnvStep file) (out, ch)).1).length →
    ∃ kv ∈ vs, ((vs.foldl (saveEnvStep file) (out, ch)).1).getD j []
      = mkLine kv.1 kv.2 := by
  intro vs
  induction vs with
  | nil =>
    intro out ch j hfo hoj hjl
    simp only [List.foldl_nil] at hjl
    omega
  | cons v vs ih =>
    intro out ch j hfo hoj hjl
    by_cases hjo2 : (saveEnvStep file (out, ch) v).1.length ≤ j
    · have hrec := ih (saveEnvStep file (out, ch) v).1 (saveEnvStep file (out, ch) v).2
        j (le_trans hfo (saveEnvStep_length file (out, ch) v)) hjo2 hjl
      obtain ⟨kv, hkv, heq⟩ := hrec
      exact ⟨kv, List.mem_cons_of_mem v hkv, heq⟩
    · push_neg at hjo2
      by_cases hk : keyInFile file v.1 = true
      · exfalso
        have hlen2 : (saveEnvStep file (out, ch) v).1.length = out.length := by
          unfold saveEnvStep
          simp [hk, List.length_mapIdx]
        omega
      · have hout2 : (saveEnvStep file (out, ch) v).1 = out ++ [mkLine v.1 v.2] := by
          unfold saveEnvStep
          simp only [Bool.not_eq_true] at hk
          simp [hk]
        have hjeq : j = out.length := by
          rw [hout2] at hjo2
          simp at hjo2
          omega
        subst hjeq
        refine ⟨v, List.mem_cons_self v vs, ?_⟩
        have hjlt : out.length < (saveEnvStep file (out, ch) v).1.length := by
          rw [hout2]; simp
        have hpres := saveEnv_fold_getD_high file vs (saveEnvStep file (out, ch) v).1
          (saveEnvStep file (out, ch) v).2 out.length hfo hjlt
        calc (List.foldl (saveEnvStep file) (out, ch) (v :: vs)).1.getD out.length []
            = (List.foldl (saveEnvStep file)
                ((saveEnvStep file (out, ch) v).1,
                 (saveEnvStep file (out, ch) v).2) vs).1.getD out.length [] := rfl
          _ = (saveEnvStep file (out, ch) v).1.getD out.length [] := hpres
          _ = mkLine v.1 v.2 := by
              rw [hout2, List.getD_eq_getElem?_getD,
                List.getElem?_append_right (le_refl _)]
              simp

/-- Helper: the `save_env` fold preserves the raw key of every line at an
original file index. -/
theorem saveEnv_fold_lineKey (file : List (List Char)) :
    ∀ (vs : List (List Char × List Char)) (out : List (List Char)) (ch : Bool),
    file.length ≤ out.length →
    (∀ j, j < file.length → lineKey (out.getD j []) = lineKey (file.getD j [])) →
    ∀ j, j < file.length →
    lineKey (((vs.foldl (saveEnvStep file) (out, ch)).1).getD j [])
      = lineKey (file.getD j []) := by
  intro vs
  induction vs with
  | nil => intro out ch _ hinv j hj; exact hinv j hj
  | cons v vs ih =>
    intro out ch hlen hinv j hj
    have hlen2 : file.length ≤ (saveEnvStep file (out, ch) v).1.length :=
      le_trans hlen (saveEnvStep_length file (out, ch) v)
    apply ih (saveEnvStep file (out, ch) v).1 (saveEnvStep file (out, ch) v).2 hlen2
      ?hinv2 j hj
    case hinv2 =>
      intro j2 hj2
      rw [saveEnvStep_getD file out ch v j2 hj2 hlen]
      by_cases hcond : keyInFile file v.1 = true ∧ lineKey (file.getD j2 []) = v.1
      · rw [if_pos hcond]
        rw [lineKey_mkLine v.1 v.2 ?hkeq, hcond.2]
        case hkeq =>
          intro c hc
          rw [← hcond.2] at hc
          exact lineKey_no_eq (file.getD j2 []) c hc
      · rw [if_neg hcond]
        exact hinv j2 hj2

/-- Helper: list extensionality through default-valued indexing. -/
theorem list_eq_of_getD {α : Type} (l1 l2 : List α) (d : α)
    (hlen : l1.length = l2.length)
    (h : ∀ i, i < l1.length → l1.getD i d = l2.getD i d) : l1 = l2 := by
  apply List.ext_getElem hlen
  intro i h1 h2
  have hg := h i h1
  rw [List.getD_eq_getElem?_getD, List.getD_eq_getElem?_getD,
    List.getElem?_eq_getElem h1, List.getElem?_eq_getElem h2] at hg
  simpa using hg

/-- Helper: output length of an updating `save_env` step. -/
theorem saveEnvStep_fst_length_update (file : List (List Char))
    (out : List (List Char)) (ch : Bool) (kv : List Char × List Char)
    (hk : keyInFile file kv.1 = true) :
    (saveEnvStep file (out, ch) kv).1.length = out.length := by
  unfold saveEnvStep
  simp [hk, List.length_mapIdx]

/-- Helper: output of an appending `save_env` step. -/
theorem saveEnvStep_append (file : List (List Char)) (out : List (List Char))
    (ch : Bool) (kv : List Char × List Char)
    (hk : keyInFile file kv.1 = false) :
    saveEnvStep file (out, ch) kv = (out ++ [mkLine kv.1 kv.2], true) := by
  unfold saveEnvStep
  simp [hk]

/-- Helper: change flag of an updating `save_env` step. -/
theorem saveEnvStep_snd_update (file : List (List Char)) (out : List (List Char))
    (ch : Bool) (kv : List Char × List Char)
    (hk : keyInFile file kv.1 = true) :
    (saveEnvStep file (out, ch) kv).2
      = (ch || (List.range file.length).any (fun i =>
          lineKey (file.getD i []) = kv.1 && out.getD i [] ≠ mkLine kv.1 kv.2)) := by
  unfold saveEnvStep
  simp [hk]

/-- Helper: the `save_env` change flag is raised exactly when the output
differs from the original file (saved keys being distinct). -/
theorem saveEnv_fold_changed (file : List (List Char)) :
    ∀ (vs : List (List Char × List Char)) (out : List (List Char)) (ch : Bool),
    (vs.map Prod.fst).Nodup →
    file.length ≤ out.length →
    (∀ i, i < file.length → out.getD i [] ≠ file.getD i [] →
       ∀ kv ∈ vs, kv.1 ≠ lineKey (file.getD i [])) →
    (ch = true ↔ out ≠ file) →
    ((vs.foldl (saveEnvStep file) (out, ch)).2 = true
       ↔ (vs.foldl (saveEnvStep file) (out, ch)).1 ≠ file) := by
  intro vs
  induction vs with
  | nil => intro out ch _ _ _ hch; exact hch
  | cons v vs ih =>
    intro out ch hnd hlen hdirty hch
    have hlen2 : file.length ≤ (saveEnvStep file (out, ch) v).1.length :=
      le_trans hlen (saveEnvStep_length file (out, ch) v)
    have hdirty2 : ∀ i, i < file.length →
        (saveEnvStep file (out, ch) v).1.getD i [] ≠ file.getD i [] →
        ∀ kv ∈ vs, kv.1 ≠ lineKey (file.getD i []) := by
      intro i hi hne kv hkv
      rw [saveEnvStep_getD file out ch v i hi hlen] at hne
      by_cases hcond : keyInFile file v.1 = true ∧ lineKey (file.getD i []) = v.1
      · intro hcontra
        apply (List.nodup_cons.mp hnd).1
        rw [List.mem_map]
        exact ⟨kv, hkv, by rw [hcontra, hcond.2]⟩
      · rw [if_neg hcond] at hne
        exact hdirty i hi hne kv (List.mem_cons_of_mem v hkv)
    have hch2 : (saveEnvStep file (out, ch) v).2 = true
        ↔ (saveEnvStep file (out, ch) v).1 ≠ file := by
      by_cases hk : keyInFile file v.1 = true
      · by_cases hdiff : ((List.range file.length).any (fun i =>
            lineKey (file.getD i []) = v.1 && out.getD i [] ≠ mkLine v.1 v.2)) = true
        · obtain ⟨i, hirange, hcondi⟩ := List.any_eq_true.mp hdiff
          have hi : i < file.length := List.mem_range.mp hirange
          simp only [Bool.and_eq_true, decide_eq_true_eq] at hcondi
          have houtfile : out.getD i [] = file.getD i [] := by
            by_contra hno
            exact (hdirty i hi hno v (List.mem_cons_self v vs)) hcondi.1.symm
          have hres1 : (saveEnvStep file (out, ch) v).1.getD i [] = mkLine v.1 v.2 := by
            rw [saveEnvStep_getD file out ch v i hi hlen, if_pos ⟨hk, hcondi.1⟩]
          constructor
          · intro _
            intro heqf
            apply hcondi.2
            rw [houtfile, ← hres1, heqf]
          · intro _
            rw [saveEnvStep_snd_update file out ch v hk, hdiff]
            simp
        · have hres1eq : (saveEnvStep file (out, ch) v).1 = out := by
            apply list_eq_of_getD _ _ []
              (saveEnvStep_fst_length_update file out ch v hk)
            intro i hilen
            have hiout : i < out.length := by
              rw [saveEnvStep_fst_length_update file out ch v hk] at hilen
              exact hilen
            by_cases hi : i < file.length
            · rw [saveEnvStep_getD file out ch v i hi hlen]
              by_cases hcond : keyInFile file v.1 = true ∧ lineKey (file.getD i []) = v.1
              · rw [if_pos hcond]
                have hnodiff := List.any_eq_false.mp (Bool.not_eq_true _ ▸ hdiff) i
                  (List.mem_range.mpr hi)
                simp only [Bool.and_eq_false_iff, decide_eq_false_iff_not,
                  Bool.not_eq_true, decide_eq_true_eq] at hnodiff
                rcases hnodiff with h1 | h2
                · exact absurd hcond.2 h1
                · rw [not_not] at h2
                  exact h2.symm
              · rw [if_neg hcond]
            · rw [saveEnvStep_getD_high file out ch v i (by omega) hiout]
          have hres2eq : (saveEnvStep file (out, ch) v).2 = ch := by
            rw [saveEnvStep_snd_update file out ch v hk]
            rw [Bool.not_eq_true] at hdiff
            rw [hdiff]
            simp
          rw [hres1eq, hres2eq]
          exact hch
      · rw [Bool.not_eq_true] at hk
        rw [saveEnvStep_append file out ch v hk]
        constructor
        · intro _
          intro heqf
          have hlf := congrArg List.length heqf
          simp at hlf
          omega
        · intro _
          rfl
    exact ih (saveEnvStep file (out, ch) v).1 (saveEnvStep file (out, ch) v).2
      (List.nodup_cons.mp hnd).2 hlen2 hdirty2 hch2

/-- Helper: with distinct keys, a key determines its pair. -/
theorem nodup_keys_unique (values : List (List Char × List Char))
    (hnd : (values.map Prod.fst).Nodup) (kv kv2 : List Char × List Char)
    (h1 : kv ∈ values) (h2 : kv2 ∈ values) (heq : kv.1 = kv2.1) : kv = kv2 := by
  induction values with
  | nil => simp at h1
  | cons v vs ih =>
    have hnd2 := List.nodup_cons.mp hnd
    rcases List.mem_cons.mp h1 with ha | ha <;> rcases List.mem_cons.mp h2 with hb | hb
    · rw [ha, hb]
    · exfalso
      apply hnd2.1
      rw [List.mem_map]
      exact ⟨kv2, hb, by rw [← heq, ha]⟩
    · exfalso
      apply hnd2.1
      rw [List.mem_map]
      exact ⟨kv, ha, by rw [heq, hb]⟩
    · exact ih hnd2.2 ha hb

/-- Claim C9: if a saved key occurs on more than one KEY=VALUE line of
the existing env file, `save_env` rewrites every one of those lines to
the new value (every original index whose raw key equals the saved key
holds the freshly written line afterwards), and it reports a change
exactly when the output differs from the original file (that is, when at
least one line was rewritten to different content or appended). Saved
keys are distinct, as they come from a Python `dict`. -/
theorem claim_c9_save_env_rewrites_all (file : List (List Char))
    (values : List (List Char × List Char))
    (hnd : (values.map Prod.fst).Nodup) :
    (∀ kv ∈ values, kv.1 ≠ [] → ∀ i, i < file.length →
       lineKey (file.getD i []) = kv.1 →
       (save_env file values).1.getD i [] = mkLine kv.1 kv.2)
  ∧ ((save_env file values).2 = true ↔ (save_env file values).1 ≠ file) := by
  constructor
  · intro kv hkv hne i hi hkey
    exact saveEnv_fold_getD_updated file values file false kv hkv hnd
      (le_refl _) hne i hi hkey
  · exact saveEnv_fold_changed file values file false hnd (le_refl _)
      (fun i hi hne => absurd rfl hne) (by simp)

/-- Witness for the claim C9 theorem: a file in which key `A` occurs on
lines 0 and 2; saving `A=9` rewrites both occurrences and reports a
change. -/
theorem claim_c9_witness :
    (save_env [String.data "A=1", String.data "B=2", String.data "A=3"]
        [(String.data "A", String.data "9")]).1.getD 0 []
      = mkLine (String.data "A") (String.data "9")
  ∧ (save_env [String.data "A=1", String.data "B=2", String.data "A=3"]
        [(String.data "A", String.data "9")]).1.getD 2 []
      = mkLine (String.data "A") (String.data "9")
  ∧ ((save_env [String.data "A=1", String.data "B=2", String.data "A=3"]
        [(String.data "A", String.data "9")]).2 = true
      ↔ (save_env [String.data "A=1", String.data "B=2", String.data "A=3"]
          [(String.data "A", String.data "9")]).1
        ≠ [String.data "A=1", String.data "B=2", String.data "A=3"]) :=
  ⟨(claim_c9_save_env_rewrites_all
      [String.data "A=1", String.data "B=2", String.data "A=3"]
      [(String.data "A", String.data "9")] (by decide)).1
      (String.data "A", String.data "9") (by decide) (by decide)
      0 (by decide) (by decide),
   (claim_c9_save_env_rewrites_all
      [String.data "A=1", String.data "B=2", String.data "A=3"]
      [(String.data "A", String.data "9")] (by decide)).1
      (String.data "A", String.data "9") (by decide) (by decide)
      2 (by decide) (by decide),
   (claim_c9_save_env_rewrites_all
      [String.data "A=1", String.data "B=2", String.data "A=3"]
      [(String.data "A", String.data "9")] (by decide)).2⟩

/-- Claim C5 counterexample: for the dictionary binding `A` to the
three-character value quote-x-quote, saving to a fresh file and loading
it back yields `A` bound to plain `x` (loadenv strips the single quotes),
so the loaded environment does not contain every key of the dictionary
bound to its original value. -/
theorem claim_c5_counterexample :
    (save_env [] [(String.data "A", [squote, 'x', squote])]).1
      = [['A', '=', squote, 'x', squote]]
  ∧ envLookup (loadenv [] (save_env [] [(String.data "A", [squote, 'x', squote])]).1)
      (String.data "A") = some (String.data "x")
  ∧ ¬ envLookup (loadenv [] (save_env [] [(String.data "A", [squote, 'x', squote])]).1)
      (String.data "A") = some [squote, 'x', squote] := by
  decide

/-- Claim C5 amended: for every dictionary whose keys are nonempty,
contain no equals sign or newline and do not open with whitespace or a
comment character, and whose values contain no dollar sign or newline, do
not end in whitespace and are not quote-wrapped (so that `loadenv`'s
stripping and expansion leave them untouched), and for every existing
file whose lines' stripped keys coincide with their raw keys wherever
they collide with a saved key: loading the file produced by `save_env`
binds every key of the dictionary to its value; the raw key of every
pre-existing line position is preserved (so the relative order of
existing keys is preserved); and the credential-store operation writes
only the host, user, tenant and token keys, never a password key. -/
theorem claim_c5_amended (file : List (List Char))
    (values : List (List Char × List Char)) (env0 : Env)
    (url user tenant token : List Char)
    (hsafe : ∀ kv ∈ values, roundtripSafe kv = true)
    (hnd : (values.map Prod.fst).Nodup)
    (hfile : ∀ l ∈ file, ∀ kv ∈ values, loadKey l = kv.1 → lineKey l = kv.1) :
    (∀ kv ∈ values,
       envLookup (loadenv env0 (save_env file values).1) kv.1 = some kv.2)
  ∧ (∀ i, i < file.length →
       lineKey ((save_env file values).1.getD i []) = lineKey (file.getD i []))
  ∧ ((∀ l ∈ file, lineKey l ≠ String.data "C8Y_PASSWORD") →
       ∀ l ∈ (save_env file (storeCredentialsValues url user tenant token)).1,
         lineKey l ≠ String.data "C8Y_PASSWORD") := by
  refine ⟨?parta, ?partb, ?partc⟩
  case partb =>
    intro i hi
    exact saveEnv_fold_lineKey file values file false (le_refl _)
      (fun j hj => rfl) i hi
  case partc =>
    intro hnp l hl
    have hl2 : l ∈ ((storeCredentialsValues url user tenant token).foldl
        (saveEnvStep file) (file, false)).1 := hl
    rcases saveEnv_fold_mem file (storeCredentialsValues url user tenant token)
        file false l hl2 with hf | ⟨kv, hkv, heq⟩
    · exact hnp l hf
    · subst heq
      simp only [storeCredentialsValues, List.mem_cons, List.not_mem_nil,
        or_false] at hkv
      rcases hkv with h | h | h | h
      · subst h
        show lineKey (mkLine (String.data "C8Y_HOST") url)
            ≠ String.data "C8Y_PASSWORD"
        rw [lineKey_mkLine _ _ (by decide)]
        decide
      · subst h
        show lineKey (mkLine (String.data "C8Y_USER") user)
            ≠ String.data "C8Y_PASSWORD"
        rw [lineKey_mkLine _ _ (by decide)]
        decide
      · subst h
        show lineKey (mkLine (String.data "C8Y_TENANT") tenant)
            ≠ String.data "C8Y_PASSWORD"
        rw [lineKey_mkLine _ _ (by decide)]
        decide
      · subst h
        show lineKey (mkLine (String.data "C8Y_TOKEN") token)
            ≠ String.data "C8Y_PASSWORD"
        rw [lineKey_mkLine _ _ (by decide)]
        decide
  case parta =>
    intro kv hkv
    have hsafekv : roundtripSafe (kv.1, kv.2) = true := hsafe kv hkv
    obtain ⟨hne, hkeq, hhead, hdol, hlast, hsq, hdq⟩ :=
      roundtripSafe_spec kv.1 kv.2 hsafekv
    have hparse : ∀ e : Env, loadenvLine e (mkLine kv.1 kv.2) = some (kv.1, kv.2) :=
      fun e => loadenvLine_mkLine_safe kv.1 kv.2 hsafekv e
    have hskipm : loadenvSkips (mkLine kv.1 kv.2) = false := by
      by_contra hsk
      rw [Bool.not_eq_false] at hsk
      have hp := hparse []
      unfold loadenvLine at hp
      rw [hsk] at hp
      simp at hp
    have hloadkeym : loadKey (mkLine kv.1 kv.2) = kv.1 :=
      (loadenvLine_key [] (mkLine kv.1 kv.2) (kv.1, kv.2) (hparse [])).symm
    apply loadenv_lookup_value kv.1 kv.2 (save_env file values).1 env0 ?hex ?hval
    case hex =>
      by_cases hk : keyInFile file kv.1 = true
      · unfold keyInFile at hk
        rw [Bool.and_eq_true, List.any_eq_true] at hk
        obtain ⟨l0, hl0, hl0k⟩ := hk.2
        simp only [decide_eq_true_eq] at hl0k
        obtain ⟨i, hi, hieq⟩ := List.mem_iff_getElem.mp hl0
        have higetD : file.getD i [] = l0 := by
          rw [List.getD_eq_getElem?_getD, List.getElem?_eq_getElem hi, hieq]
          rfl
        have hupd : (save_env file values).1.getD i [] = mkLine kv.1 kv.2 :=
          saveEnv_fold_getD_updated file values file false kv hkv hnd
            (le_refl _) hne i hi (by rw [higetD]; exact hl0k)
        have hilen : i < (save_env file values).1.length :=
          lt_of_lt_of_le hi (saveEnv_fold_length file values file false)
        refine ⟨(save_env file values).1.getD i [], mem_of_getD _ i [] hilen, ?_, ?_⟩
        · rw [hupd]
          exact hskipm
        · rw [hupd]
          exact hloadkeym
      · have hmem0 : mkLine kv.1 kv.2 ∈ (save_env file values).1 ∨
            keyInFile file kv.1 = true :=
          saveEnv_fold_new_mem file values file false kv hkv (le_refl _)
        rcases hmem0 with hmem | hkf
        · exact ⟨mkLine kv.1 kv.2, hmem, hskipm, hloadkeym⟩
        · exact absurd hkf hk
    case hval =>
      intro l hl hkeyl e
      obtain ⟨j, hj, hjeq⟩ := List.mem_iff_getElem.mp hl
      have hjgetD : (save_env file values).1.getD j [] = l := by
        rw [List.getD_eq_getElem?_getD, List.getElem?_eq_getElem hj, hjeq]
        rfl
      by_cases hjf : j < file.length
      · by_cases hex2 : ∃ kv2 ∈ values, lineKey (file.getD j []) = kv2.1
        · obtain ⟨kv2, hkv2, hkey2⟩ := hex2
          have hsafe2 := roundtripSafe_spec kv2.1 kv2.2 (hsafe kv2 hkv2)
          have hupd2 : (save_env file values).1.getD j [] = mkLine kv2.1 kv2.2 :=
            saveEnv_fold_getD_updated file values file false kv2 hkv2 hnd
              (le_refl _) hsafe2.1 j hjf hkey2
          have hleq : l = mkLine kv2.1 kv2.2 := by rw [← hjgetD, hupd2]
          have hparse2 : ∀ e2 : Env, loadenvLine e2 l = some (kv2.1, kv2.2) := by
            intro e2
            rw [hleq]
            exact loadenvLine_mkLine_safe kv2.1 kv2.2 (hsafe kv2 hkv2) e2
          have hlk2 : loadKey l = kv2.1 :=
            (loadenvLine_key [] l (kv2.1, kv2.2) (hparse2 [])).symm
          have hkveq : kv2 = kv :=
            nodup_keys_unique values hnd kv2 kv hkv2 hkv (by rw [← hlk2, hkeyl])
          rw [← hkveq]
          exact hparse2 e
        · push_neg at hex2
          have hother : (save_env file values).1.getD j [] = file.getD j [] :=
            saveEnv_fold_getD_other file values file false j hjf (le_refl _)
              (fun kv2 hkv2 hc => hex2 kv2 hkv2 hc)
          have hlf : l = file.getD j [] := by rw [← hjgetD, hother]
          have hlmem : l ∈ file := by rw [hlf]; exact mem_of_getD file j [] hjf
          have hlinek : lineKey l = kv.1 := hfile l hlmem kv hkv hkeyl
          exfalso
          apply hex2 kv hkv
          rw [← hlf]
          exact hlinek
      · have hjhigh : file.length ≤ j := by omega
        obtain ⟨kv3, hkv3, heq3⟩ :=
          saveEnv_fold_high_is_new file values file false j (le_refl _) hjhigh hj
        have hleq3 : l = mkLine kv3.1 kv3.2 := by rw [← hjgetD]; exact heq3
        have hparse3 : ∀ e3 : Env, loadenvLine e3 l = some (kv3.1, kv3.2) := by
          intro e3
          rw [hleq3]
          exact loadenvLine_mkLine_safe kv3.1 kv3.2 (hsafe kv3 hkv3) e3
        have hlk3 : loadKey l = kv3.1 :=
          (loadenvLine_key [] l (kv3.1, kv3.2) (hparse3 [])).symm
        have hkveq3 : kv3 = kv :=
          nodup_keys_unique values hnd kv3 kv hkv3 hkv (by rw [← hlk3, hkeyl])
        rw [← hkveq3]
        exact hparse3 e

/-- Witness for the amended claim C5 theorem: storing the credential keys
into a fresh env file and loading it back binds `C8Y_HOST` to the saved
host value. -/
theorem claim_c5_amended_witness :
    envLookup
      (loadenv []
        (save_env []
          (storeCredentialsValues (String.data "https://example.com")
            (String.data "alice") (String.data "t1234")
            (String.data "tok99"))).1)
      (String.data "C8Y_HOST") = some (String.data "https://example.com") :=
  (claim_c5_amended []
    (storeCredentialsValues (String.data "https://example.com")
      (String.data "alice") (String.data "t1234") (String.data "tok99"))
    [] (String.data "https://example.com") (String.data "alice")
    (String.data "t1234") (String.data "tok99")
    (by decide) (by decide) (by decide)).1
    (String.data "C8Y_HOST", String.data "https://example.com") (by decide)

end C8ylp
